import Mathlib

/-!
Verification of `distutils644.py` (archive-metadata normalization).

The Python module monkey-patches distutils so that generated archives have
canonical ownership (root:root), permissions (0644 or 0755), directory-entry
order (sorted) and tar format (ustar).  The definitions below are shallow
embeddings of the functions of that module; machine integers are modelled as
`Nat` (CPython mode values are unbounded nonnegative ints) and the bitwise
operations of the source are kept as `&&&`, `|||`, `>>>`, `<<<`.
-/

namespace Distutils644

/-! ### normalize_mode (distutils644.py lines 79-84)

Source:
```
def normalize_mode(mode):
    mode &= ~0o77
    mode |= 0o644
    if mode & 0o100:
        mode |= 0o111
    return mode
```
`mode &= ~0o77` clears the low six bits; on a nonnegative unbounded integer
that is `mode - mode % 0o100`. -/

/-- Embedding of `normalize_mode`: clear group/other bits, set `0o644`,
and propagate the owner-execute bit to all three execute bits. -/
def normalize_mode (mode : Nat) : Nat :=
  let mode := mode - mode % 0o100
  let mode := mode ||| 0o644
  if mode &&& 0o100 ≠ 0 then mode ||| 0o111 else mode

/-! Generic facts about splitting a natural number into high bits
(a multiple of `2^k`) and low bits (below `2^k`). -/

theorem or_high_low {k : Nat} (h a b : Nat) (ha : a < 2 ^ k) (hb : b < 2 ^ k) :
    (2 ^ k * h + a) ||| b = 2 ^ k * h + (a ||| b) := by
  rw [Nat.mul_add_lt_is_or ha, Nat.or_assoc,
    ← Nat.mul_add_lt_is_or (Nat.or_lt_two_pow ha hb)]

theorem and_high_zero {k : Nat} (h b : Nat) (hb : b < 2 ^ k) :
    (2 ^ k * h) &&& b = 0 := by
  apply Nat.eq_of_testBit_eq
  intro j
  rcases lt_or_le j k with hj | hj
  · simp [Nat.testBit_mul_pow_two, Nat.not_le.mpr hj]
  · have : b < 2 ^ j := lt_of_lt_of_le hb (Nat.pow_le_pow_right (by norm_num) hj)
    simp [Nat.testBit_lt_two_pow this]

theorem and_high_low {k : Nat} (h a b : Nat) (ha : a < 2 ^ k) (hb : b < 2 ^ k) :
    (2 ^ k * h + a) &&& b = a &&& b := by
  rw [Nat.mul_add_lt_is_or ha, Nat.and_distrib_right, and_high_zero h b hb]
  simp

theorem testBit_high_low {k : Nat} (h a : Nat) (ha : a < 2 ^ k) (i : Nat) (hi : i < k) :
    (2 ^ k * h + a).testBit i = a.testBit i := by
  rw [Nat.testBit_mul_pow_two_add h ha i, if_pos hi]

theorem two_pow_nine : (2 : Nat) ^ 9 = 512 := by norm_num

/-- Specialization of `or_high_low` to the 9-bit permission field. -/
theorem or512 (h a b : Nat) (ha : a < 512) (hb : b < 512) :
    (512 * h + a) ||| b = 512 * h + (a ||| b) := by
  have := or_high_low (k := 9) h a b (two_pow_nine ▸ ha) (two_pow_nine ▸ hb)
  rwa [two_pow_nine] at this

/-- Specialization of `and_high_low` to the 9-bit permission field. -/
theorem and512 (h a b : Nat) (ha : a < 512) (hb : b < 512) :
    (512 * h + a) &&& b = a &&& b := by
  have := and_high_low (k := 9) h a b (two_pow_nine ▸ ha) (two_pow_nine ▸ hb)
  rwa [two_pow_nine] at this

/-- Specialization of `testBit_high_low` to the 9-bit permission field. -/
theorem testBit512 (h a : Nat) (ha : a < 512) (i : Nat) (hi : i < 9) :
    (512 * h + a).testBit i = a.testBit i := by
  have := testBit_high_low (k := 9) h a (two_pow_nine ▸ ha) i hi
  rwa [two_pow_nine] at this

/-- Specialization of `Nat.or_lt_two_pow` to the 9-bit permission field. -/
theorem or_lt_512 {a b : Nat} (ha : a < 512) (hb : b < 512) : a ||| b < 512 := by
  have := Nat.or_lt_two_pow (n := 9) (two_pow_nine ▸ ha) (two_pow_nine ▸ hb)
  rwa [two_pow_nine] at this

/-- Value table for the `mode |= 0o644` step on six-bit-cleared permission
fields: or-ing any multiple of 64 below 512 with `0o644` gives `0o644` when
the owner-execute bit is clear, `0o744` when it is set. -/
theorem or420_table : ∀ r < 8, 64 * r ||| 420 = if r % 2 = 1 then 484 else 420 := by
  decide

/-- Characterization of `normalize_mode`: the bits above the 9-bit permission
field are preserved and the permission field becomes `0o755` when the
owner-execute bit of the input was set, `0o644` otherwise. -/
theorem normalize_mode_eq (m : Nat) :
    normalize_mode m = 512 * (m / 512) + (if m.testBit 6 then 0o755 else 0o644) := by
  have e1 : m - m % 0o100 = 512 * (m / 512) + 64 * (m % 512 / 64) := by omega
  have hr8 : m % 512 / 64 < 8 := by omega
  have h64r : 64 * (m % 512 / 64) < 512 := by omega
  have hor : 64 * (m % 512 / 64) ||| 420 < 512 := or_lt_512 h64r (by norm_num)
  have hm6 : m.testBit 6 = decide (m % 512 / 64 % 2 = 1) := by
    rw [Nat.testBit_to_div_mod]
    have h2 : m / 2 ^ 6 % 2 = m % 512 / 64 % 2 := by
      have h64 : (2 : Nat) ^ 6 = 64 := by norm_num
      rw [h64]; omega
    rw [h2]
  simp only [normalize_mode, e1]
  rw [or512 _ _ _ h64r (by norm_num)]
  rw [and512 _ _ _ hor (by norm_num)]
  rw [or420_table _ hr8, hm6]
  by_cases hpar : m % 512 / 64 % 2 = 1
  · rw [if_pos hpar]
    rw [if_pos (show (484 : Nat) &&& 64 ≠ 0 from by decide)]
    rw [or512 _ _ _ (by norm_num) (by norm_num)]
    rw [show ((484 : Nat) ||| 73) = 493 from by decide]
    rw [if_pos (show decide (m % 512 / 64 % 2 = 1) = true from by simp [hpar])]
  · rw [if_neg hpar]
    rw [if_neg (show ¬((420 : Nat) &&& 64 ≠ 0) from by decide)]
    rw [if_neg (show ¬(decide (m % 512 / 64 % 2 = 1) = true) from by simp [hpar])]

/-- The permission field of `normalize_mode m` when the owner-execute bit of
`m` is set. -/
theorem normalize_mode_of_exec (m : Nat) (h : m.testBit 6 = true) :
    normalize_mode m = 512 * (m / 512) + 0o755 := by
  rw [normalize_mode_eq, h, if_pos rfl]

/-- The permission field of `normalize_mode m` when the owner-execute bit of
`m` is clear. -/
theorem normalize_mode_of_noexec (m : Nat) (h : m.testBit 6 = false) :
    normalize_mode m = 512 * (m / 512) + 0o644 := by
  rw [normalize_mode_eq, h, if_neg (by simp)]

/-- C1, original statement, fails: `normalize_mode` preserves bits above the
permission triads, so a setuid input mode `0o4644` is returned unchanged and
lies outside `{0o644, 0o755}`. -/
theorem claim_C1_counterexample :
    normalize_mode 0o4644 = 0o4644 ∧
      ¬(normalize_mode 0o4644 = 0o644 ∨ normalize_mode 0o4644 = 0o755) := by
  constructor
  · decide
  · decide

/-- C1 (amended): for every raw mode value `m`, the low nine permission bits
of `normalize_mode m` are `0o644` or `0o755` (bits above the permission
triads, such as setuid or file-type bits, are preserved rather than cleared,
so the membership holds of the permission field, not of the whole value). -/
theorem claim_C1_amended (m : Nat) :
    normalize_mode m % 0o1000 = 0o644 ∨ normalize_mode m % 0o1000 = 0o755 := by
  rw [normalize_mode_eq m]
  by_cases h : m.testBit 6
  · right; rw [if_pos h]; omega
  · left; rw [if_neg h]; omega

/-- C4: `normalize_mode m` has the group-execute and other-execute bits set
iff the owner-execute bit of `m` was set; when the owner-execute bit is
clear, all three execute bits of the result are clear, and when it is set,
all three are set. -/
theorem claim_C4 (m : Nat) :
    (normalize_mode m &&& 0o111 = if m.testBit 6 then 0o111 else 0) ∧
      ((normalize_mode m).testBit 3 ↔ m.testBit 6) ∧
      ((normalize_mode m).testBit 0 ↔ m.testBit 6) := by
  cases h : m.testBit 6
  · rw [normalize_mode_of_noexec m h, if_neg (by simp [h])]
    refine ⟨?_, ?_, ?_⟩
    · rw [and512 _ _ _ (by norm_num) (by norm_num)]; decide
    · rw [testBit512 _ _ (by norm_num) 3 (by norm_num)]; decide
    · rw [testBit512 _ _ (by norm_num) 0 (by norm_num)]; decide
  · rw [normalize_mode_of_exec m h, if_pos (by simp [h])]
    refine ⟨?_, ?_, ?_⟩
    · rw [and512 _ _ _ (by norm_num) (by norm_num)]; decide
    · rw [testBit512 _ _ (by norm_num) 3 (by norm_num)]; decide
    · rw [testBit512 _ _ (by norm_num) 0 (by norm_num)]; decide

/-- C5: `normalize_mode` is idempotent. -/
theorem claim_C5 (m : Nat) :
    normalize_mode (normalize_mode m) = normalize_mode m := by
  cases h : m.testBit 6
  · rw [normalize_mode_of_noexec m h]
    have hdiv : (512 * (m / 512) + 420) / 512 = m / 512 := by omega
    have hbit : (512 * (m / 512) + 420).testBit 6 = false := by
      rw [testBit512 _ _ (by norm_num) 6 (by norm_num)]; decide
    rw [normalize_mode_of_noexec _ hbit, hdiv]
  · rw [normalize_mode_of_exec m h]
    have hdiv : (512 * (m / 512) + 493) / 512 = m / 512 := by omega
    have hbit : (512 * (m / 512) + 493).testBit 6 = true := by
      rw [testBit512 _ _ (by norm_num) 6 (by norm_num)]; decide
    rw [normalize_mode_of_exec _ hbit, hdiv]

/-! ### StatResult644 (distutils644.py lines 86-111)

The wrapped stat record overrides `st_mode`, `st_uid`, `st_gid` (as
properties) and forwards every other attribute via `__getattr__` and every
other tuple index via `__getitem__` to the original record.  The original
stat record is modelled with its three overridden fields explicit, a map
from attribute names to values for the remaining named attributes, and a map
from tuple indices to values for the remaining tuple slots.  Mode values are
nonnegative (`Nat`); uid/gid and other values may be negative (`Int`). -/

/-- Index of `st_mode` in the stat tuple (CPython `stat.ST_MODE`). -/
def ST_MODE : Nat := 0

/-- Index of `st_uid` in the stat tuple (CPython `stat.ST_UID`). -/
def ST_UID : Nat := 4

/-- Index of `st_gid` in the stat tuple (CPython `stat.ST_GID`). -/
def ST_GID : Nat := 5

/-- Model of a raw `os.stat_result`. -/
structure stat_result where
  st_mode : Nat
  st_uid : Int
  st_gid : Int
  /-- every other named attribute (`st_size`, `st_mtime`, ...) -/
  attrs : String → Int
  /-- every tuple slot other than `ST_MODE`, `ST_UID`, `ST_GID` -/
  items : Nat → Int

/-- Attribute access on the raw stat record. -/
def stat_result.getattr (s : stat_result) (name : String) : Int :=
  if name = "st_mode" then (s.st_mode : Int)
  else if name = "st_uid" then s.st_uid
  else if name = "st_gid" then s.st_gid
  else s.attrs name

/-- Tuple-index access on the raw stat record. -/
def stat_result.getitem (s : stat_result) (n : Nat) : Int :=
  if n = ST_MODE then (s.st_mode : Int)
  else if n = ST_UID then s.st_uid
  else if n = ST_GID then s.st_gid
  else s.items n

/-- Embedding of `StatResult644.__init__`: the wrapper holds the original. -/
structure StatResult644 where
  _original : stat_result

/-- Embedding of the `st_mode` property (line 91-93). -/
def StatResult644.st_mode (s : StatResult644) : Nat :=
  normalize_mode s._original.st_mode

/-- Embedding of the `st_uid` property (line 95-97). -/
def StatResult644.st_uid (_s : StatResult644) : Int := 0

/-- Embedding of the `st_gid` property (line 99-101). -/
def StatResult644.st_gid (_s : StatResult644) : Int := 0

/-- Combined attribute access on the wrapper: the three properties are found
first; `__getattr__` (line 103-104) only fires for the remaining names and
forwards to the original record. -/
def StatResult644.getattr (s : StatResult644) (attr : String) : Int :=
  if attr = "st_mode" then (s.st_mode : Int)
  else if attr = "st_uid" then s.st_uid
  else if attr = "st_gid" then s.st_gid
  else s._original.getattr attr

/-- Embedding of `__getitem__` (line 106-111). -/
def StatResult644.getitem (s : StatResult644) (n : Nat) : Int :=
  if n = ST_MODE then (s.st_mode : Int)
  else if n = ST_UID ∨ n = ST_GID then 0
  else s._original.getitem n

/-- A concrete raw stat record used by witnesses. -/
def sample_stat : stat_result :=
  { st_mode := 0o100640, st_uid := 1000, st_gid := 1000,
    attrs := fun _ => 7, items := fun _ => 9 }

/-- The wrapped form of `sample_stat`. -/
def sample_stat644 : StatResult644 := ⟨sample_stat⟩

/-- C6: the normalized stat record reports owner id 0 and group id 0,
whatever the original uid/gid were, via the properties, via attribute
access, and via tuple-index access at `ST_UID` and `ST_GID`. -/
theorem claim_C6 (s : StatResult644) :
    s.st_uid = 0 ∧ s.st_gid = 0 ∧
      s.getattr "st_uid" = 0 ∧ s.getattr "st_gid" = 0 ∧
      s.getitem ST_UID = 0 ∧ s.getitem ST_GID = 0 := by
  refine ⟨rfl, rfl, ?_, ?_, ?_, ?_⟩ <;>
    simp [StatResult644.getattr, StatResult644.getitem, StatResult644.st_uid,
      StatResult644.st_gid, ST_MODE, ST_UID, ST_GID]

/-- C10: the normalized stat record leaves every field other than `st_mode`,
`st_uid`, `st_gid` unchanged: attribute access at any other name and
tuple-index access at any other index return exactly the original record's
value. -/
theorem claim_C10 (s : StatResult644) (attr : String) (n : Nat) :
    (attr ≠ "st_mode" → attr ≠ "st_uid" → attr ≠ "st_gid" →
      s.getattr attr = s._original.getattr attr) ∧
    (n ≠ ST_MODE → n ≠ ST_UID → n ≠ ST_GID →
      s.getitem n = s._original.getitem n) := by
  constructor
  · intro h1 h2 h3
    simp [StatResult644.getattr, h1, h2, h3]
  · intro h1 h2 h3
    simp [StatResult644.getitem, h1, h2, h3]

/-- Witness for C10 at a concrete record, name and index. -/
theorem claim_C10_witness :
    sample_stat644.getattr "st_size" = sample_stat644._original.getattr "st_size" ∧
      sample_stat644.getitem 6 = sample_stat644._original.getitem 6 :=
  ⟨(claim_C10 sample_stat644 "st_size" 6).1 (by decide) (by decide) (by decide),
    (claim_C10 sample_stat644 "st_size" 6).2 (by decide) (by decide) (by decide)⟩

/-! ### Wheel zip post-write fixup (distutils644.py lines 134-148)

`_fix_last_zipinfo` patches the permission field stored in the upper 16 bits
of the last archive entry's `external_attr`; `WheelFile.write` (entry from
file content) and `WheelFile.writestr` (entry from an in-memory byte string)
first let the original writer append the entry and then apply the fixup,
`writestr` with the fixed mode `0o100644`.  The zip file is modelled by its
`filelist`; `entry` stands for the record the original writer appended. -/

/-- Model of a `zipfile.ZipInfo` reduced to the field the fixup touches. -/
structure ZipInfo where
  external_attr : Nat

/-- Embedding of `_fix_last_zipinfo` (lines 134-138).  The source indexes
`filelist[-1]`; callers always append an entry first, so the list is
nonempty and the `none` branch of `getLast?` is never taken. -/
def _fix_last_zipinfo (filelist : List ZipInfo) (mode : Option Nat) : List ZipInfo :=
  match filelist.getLast? with
  | none => filelist
  | some zipinfo =>
      let m := match mode with
        | none => normalize_mode (zipinfo.external_attr >>> 16)
        | some m => m
      filelist.dropLast ++ [⟨(zipinfo.external_attr &&& 0xFFFF) ||| (m <<< 16)⟩]

/-- Embedding of `WheelFile_write` (lines 140-143): the original writer
appends `entry`, then the fixup runs with `mode = None`. -/
def WheelFile_write (filelist : List ZipInfo) (entry : ZipInfo) : List ZipInfo :=
  _fix_last_zipinfo (filelist ++ [entry]) none

/-- Embedding of `WheelFile_writestr` (lines 144-148): the original writer
appends `entry`, then the fixup runs with `mode = 0o100644`. -/
def WheelFile_writestr (filelist : List ZipInfo) (entry : ZipInfo) : List ZipInfo :=
  _fix_last_zipinfo (filelist ++ [entry]) (some 0o100644)

theorem two_pow_sixteen : (2 : Nat) ^ 16 = 65536 := by norm_num

/-- Reading back the mode planted in the upper 16 bits of `external_attr`. -/
theorem patched_attr_shr (a m : Nat) (ha : a < 65536) :
    (a ||| (m <<< 16)) >>> 16 = m := by
  rw [Nat.shiftLeft_eq, Nat.or_comm, Nat.mul_comm,
    ← Nat.mul_add_lt_is_or (two_pow_sixteen ▸ ha),
    Nat.shiftRight_eq_div_pow, two_pow_sixteen]
  omega

/-- The fixup leaves the lower 16 bits of `external_attr` unchanged. -/
theorem patched_attr_low (a m : Nat) (ha : a < 65536) :
    (a ||| (m <<< 16)) &&& 0xFFFF = a := by
  rw [Nat.shiftLeft_eq, Nat.or_comm, Nat.mul_comm,
    ← Nat.mul_add_lt_is_or (two_pow_sixteen ▸ ha),
    show (0xFFFF : Nat) = 2 ^ 16 - 1 from by norm_num,
    Nat.and_pow_two_sub_one_eq_mod, two_pow_sixteen]
  omega

theorem low16_lt (e : Nat) : e &&& 0xFFFF < 65536 := by
  have := Nat.mod_lt e (y := 65536) (by norm_num)
  rwa [show (0xFFFF : Nat) = 2 ^ 16 - 1 from by norm_num,
    Nat.and_pow_two_sub_one_eq_mod, two_pow_sixteen]

/-- C7: after `WheelFile.write` appends an entry, the last entry's stored
permission field (the upper 16 bits of `external_attr`) is
`normalize_mode` of the mode the writer captured, with the lower 16 bits
unchanged; after `WheelFile.writestr` it is the fixed regular-file mode
`0o100644`. -/
theorem claim_C7 (filelist : List ZipInfo) (entry : ZipInfo) :
    ((WheelFile_write filelist entry).getLast?.map
        (fun z => z.external_attr >>> 16)
      = some (normalize_mode (entry.external_attr >>> 16))) ∧
    ((WheelFile_write filelist entry).getLast?.map
        (fun z => z.external_attr &&& 0xFFFF)
      = some (entry.external_attr &&& 0xFFFF)) ∧
    ((WheelFile_writestr filelist entry).getLast?.map
        (fun z => z.external_attr >>> 16)
      = some 0o100644) ∧
    ((WheelFile_writestr filelist entry).getLast?.map
        (fun z => z.external_attr &&& 0xFFFF)
      = some (entry.external_attr &&& 0xFFFF)) := by
  have hw : WheelFile_write filelist entry =
      (filelist ++ [entry]).dropLast ++
        [⟨(entry.external_attr &&& 0xFFFF) |||
          (normalize_mode (entry.external_attr >>> 16) <<< 16)⟩] := by
    rw [WheelFile_write, _fix_last_zipinfo, List.getLast?_concat]
  have hws : WheelFile_writestr filelist entry =
      (filelist ++ [entry]).dropLast ++
        [⟨(entry.external_attr &&& 0xFFFF) ||| (0o100644 <<< 16)⟩] := by
    rw [WheelFile_writestr, _fix_last_zipinfo, List.getLast?_concat]
  refine ⟨?_, ?_, ?_, ?_⟩
  · rw [hw, List.getLast?_concat, Option.map_some',
      patched_attr_shr _ _ (low16_lt _)]
  · rw [hw, List.getLast?_concat, Option.map_some',
      patched_attr_low _ _ (low16_lt _)]
  · rw [hws, List.getLast?_concat, Option.map_some',
      patched_attr_shr _ _ (low16_lt _)]
  · rw [hws, List.getLast?_concat, Option.map_some',
      patched_attr_low _ _ (low16_lt _)]

/-! ### monkeypatch (distutils644.py lines 58-66)

The context manager records the original attribute, installs the
replacement, runs the wrapped operation, and in a `finally` clause restores
the original.  A module is modelled as a map from attribute names to values;
the wrapped operation is a function of the module state that either returns
normally (`Except.ok`) or raises (`Except.error`), in both cases yielding
the module state it left behind. -/

/-- Attribute read on a module (`getattr(mod, name)`). -/
def module_getattr {α : Type} (mod : String → α) (name : String) : α :=
  mod name

/-- Attribute write on a module (`setattr(mod, name, value)`). -/
def module_setattr {α : Type} (mod : String → α) (name : String) (value : α) :
    String → α :=
  fun n => if n = name then value else mod n

/-- Embedding of `monkeypatch`: install `func` over `mod.name`, run `body`,
and restore the recorded original in the `finally` clause on both the normal
and the raising exit path.  The result pairs the outcome of `body` with the
final module state. -/
def monkeypatch {α β ε : Type} (mod : String → α) (name : String) (func : α)
    (body : (String → α) → Except (ε × (String → α)) (β × (String → α))) :
    Except ε β × (String → α) :=
  let orig_func := module_getattr mod name
  match body (module_setattr mod name func) with
  | Except.ok (r, mod') => (Except.ok r, module_setattr mod' name orig_func)
  | Except.error (e, mod') => (Except.error e, module_setattr mod' name orig_func)

/-- C3: after the monkeypatch scope exits, the patched attribute again holds
its original value, on every exit path: the first conjunct is unconditional
(it covers every body), and the last two spell out the normal-return and the
raising path, each restoring the recorded original. -/
theorem claim_C3 {α β ε : Type} (mod : String → α) (name : String) (func : α)
    (body : (String → α) → Except (ε × (String → α)) (β × (String → α))) :
    ((monkeypatch mod name func body).2 name = mod name) ∧
    (∀ (r : β) mod', body (module_setattr mod name func) = Except.ok (r, mod') →
      monkeypatch mod name func body =
        (Except.ok r, module_setattr mod' name (module_getattr mod name))) ∧
    (∀ (e : ε) mod', body (module_setattr mod name func) = Except.error (e, mod') →
      monkeypatch mod name func body =
        (Except.error e, module_setattr mod' name (module_getattr mod name))) := by
  refine ⟨?_, ?_, ?_⟩
  · rw [monkeypatch]
    cases hb : body (module_setattr mod name func) with
    | ok p => simp [module_setattr, module_getattr]
    | error p => simp [module_setattr, module_getattr]
  · intro r mod' hb
    rw [monkeypatch, hb]
  · intro e mod' hb
    rw [monkeypatch, hb]

/-- A concrete module state used by the C3 witness. -/
def sample_module : String → Nat := fun _ => 0

/-- Witness for C3: a body that returns normally and a body that raises,
both at concrete inputs; in each case the final state maps the patched name
back to its original value. -/
theorem claim_C3_witness :
    (monkeypatch (ε := Unit) sample_module "stat" 7
        (fun m => Except.ok (m "stat", m)) =
      (Except.ok 7, module_setattr (module_setattr sample_module "stat" 7)
        "stat" (sample_module "stat"))) ∧
    (monkeypatch (ε := Unit) (β := Nat) sample_module "stat" 7
        (fun m => Except.error ((), m)) =
      (Except.error (), module_setattr (module_setattr sample_module "stat" 7)
        "stat" (sample_module "stat"))) := by
  constructor
  · exact (claim_C3 sample_module "stat" 7 _).2.1
      7 (module_setattr sample_module "stat" 7) rfl
  · exact (claim_C3 sample_module "stat" 7 _).2.2
      () (module_setattr sample_module "stat" 7) rfl

/-! ### TarFile644 and make_tarball (distutils644.py lines 150-166)

`install` defines `TarFile644`, a `tarfile.TarFile` subclass with
`format = tarfile.USTAR_FORMAT`, and a `make_tarball` wrapper that swaps
`sys.modules['tarfile']` for a stub module whose `open` is
`TarFile644.open` before delegating to `distutils.archive_util.make_tarball`
(which resolves `tarfile` through `sys.modules`), restoring the module table
in a `finally` clause.  A tar writer class is modelled by its `format`
attribute; the byte-level writer itself is the stdlib capability the wrapper
routes, so the model records which writer class the delegated builder
resolves for `'tarfile'` while the stub is installed. -/

/-- CPython `tarfile.USTAR_FORMAT`. -/
def USTAR_FORMAT : Nat := 0

/-- CPython `tarfile.DEFAULT_FORMAT` (a non-ustar dialect; its exact value
is irrelevant here). -/
def DEFAULT_FORMAT : Nat := 2

/-- A tar writer class, reduced to its `format` class attribute. -/
structure TarFileClass where
  format : Nat

/-- The stock `tarfile.TarFile` class. -/
def TarFile : TarFileClass := { format := DEFAULT_FORMAT }

/-- Embedding of `TarFile644` (lines 152-153): the subclass overrides only
`format`. -/
def TarFile644 : TarFileClass := { TarFile with format := USTAR_FORMAT }

/-- Embedding of the `make_tarball` wrapper (lines 155-166): install the
stub over `sys.modules['tarfile']`, let the delegated builder resolve its
tar writer through the patched table, and restore the table in the
`finally` clause.  Returns the format of the writer class the builder
resolved, paired with the restored module table. -/
def make_tarball (sys_modules : String → TarFileClass) :
    Nat × (String → TarFileClass) :=
  let orig_sys_modules := sys_modules
  let tarfile_mod : TarFileClass := TarFile644
  let sys_modules := fun n => if n = "tarfile" then tarfile_mod else sys_modules n
  ((sys_modules "tarfile").format, orig_sys_modules)

/-- C8: every tar archive built through the normalized builder is produced
by a writer whose format is `USTAR_FORMAT`, because `make_tarball` routes
tar creation through `TarFile644`, whose `format` is `USTAR_FORMAT`; the
module table is restored afterwards. -/
theorem claim_C8 (sys_modules : String → TarFileClass) :
    (make_tarball sys_modules).1 = USTAR_FORMAT ∧
      (make_tarball sys_modules).2 = sys_modules ∧
      TarFile644.format = USTAR_FORMAT := by
  refine ⟨?_, rfl, rfl⟩
  simp [make_tarball, TarFile644, TarFile]

/-! ### install and patch_format (distutils644.py lines 150-187)

`install` rewrites `distutils.archive_util.ARCHIVE_FORMATS` by mapping
`patch_format` over its entries: an entry whose function is the stock
`make_tarball` (resp. `make_zipfile`) is replaced by the normalized builder,
and every other entry is returned unchanged.  The functions that can occupy
an entry's first slot are modelled as an enumeration; the rest of the entry
tuple (`fmt[1:]`) is carried through as an opaque value. -/

/-- The functions a format entry may dispatch to.  `make_tarball_orig` and
`make_zipfile_orig` are the stock `distutils.archive_util` builders;
`make_tarball644` and `make_zipfile644` are the normalized closures
`install` creates; `other` is any unrelated handler. -/
inductive ArchiveFn : Type where
  | make_tarball_orig : ArchiveFn
  | make_zipfile_orig : ArchiveFn
  | make_tarball644 : ArchiveFn
  | make_zipfile644 : ArchiveFn
  | other : Nat → ArchiveFn
deriving DecidableEq

/-- Embedding of `patch_format` (lines 173-179): replace the stock builders
by the normalized ones, keep anything else, and keep `fmt[1:]`. -/
def patch_format {α : Type} (fmt : ArchiveFn × α) : ArchiveFn × α :=
  let func := fmt.1
  let func := match func with
    | ArchiveFn.make_tarball_orig => ArchiveFn.make_tarball644
    | ArchiveFn.make_zipfile_orig => ArchiveFn.make_zipfile644
    | f => f
  (func, fmt.2)

/-- Embedding of the `ARCHIVE_FORMATS` rewrite in `install`
(lines 181-187): the table is replaced by its image under `patch_format`,
keys unchanged. -/
def install {α : Type} (archive_formats : String → ArchiveFn × α) :
    String → ArchiveFn × α :=
  fun key => patch_format (archive_formats key)

/-- C9: `install` is idempotent on the format-handler table: a second call
leaves the table exactly as the first call left it; the tar and zip entries
dispatch to the normalized builders after the first call and still do after
any further call; and an entry of any other registered format is untouched
by every call. -/
theorem claim_C9 {α : Type} (archive_formats : String → ArchiveFn × α) :
    install (install archive_formats) = install archive_formats ∧
    (∀ key rest, archive_formats key = (ArchiveFn.make_tarball_orig, rest) →
      install archive_formats key = (ArchiveFn.make_tarball644, rest) ∧
      install (install archive_formats) key = (ArchiveFn.make_tarball644, rest)) ∧
    (∀ key rest, archive_formats key = (ArchiveFn.make_zipfile_orig, rest) →
      install archive_formats key = (ArchiveFn.make_zipfile644, rest) ∧
      install (install archive_formats) key = (ArchiveFn.make_zipfile644, rest)) ∧
    (∀ key n rest, archive_formats key = (ArchiveFn.other n, rest) →
      install archive_formats key = (ArchiveFn.other n, rest) ∧
      install (install archive_formats) key = (ArchiveFn.other n, rest)) := by
  have hpp : ∀ fmt : ArchiveFn × α, patch_format (patch_format fmt) = patch_format fmt := by
    intro fmt
    obtain ⟨f, rest⟩ := fmt
    cases f <;> rfl
  have hinst : install (install archive_formats) = install archive_formats := by
    funext key
    exact hpp (archive_formats key)
  refine ⟨hinst, ?_, ?_, ?_⟩
  · intro key rest h
    have h1 : install archive_formats key = (ArchiveFn.make_tarball644, rest) := by
      rw [install, h]; rfl
    exact ⟨h1, by rw [hinst]; exact h1⟩
  · intro key rest h
    have h1 : install archive_formats key = (ArchiveFn.make_zipfile644, rest) := by
      rw [install, h]; rfl
    exact ⟨h1, by rw [hinst]; exact h1⟩
  · intro key n rest h
    have h1 : install archive_formats key = (ArchiveFn.other n, rest) := by
      rw [install, h]; rfl
    exact ⟨h1, by rw [hinst]; exact h1⟩

/-- A concrete format table used by the C9 witness: the stock tar and zip
entries plus an unrelated handler. -/
def sample_formats : String → ArchiveFn × Nat := fun key =>
  if key = "gztar" then (ArchiveFn.make_tarball_orig, 0)
  else if key = "zip" then (ArchiveFn.make_zipfile_orig, 1)
  else (ArchiveFn.other 3, 2)

/-- Witness for C9 at the concrete table: tar and zip entries are swapped
for the normalized builders by the first call and unchanged by the second;
the unrelated entry is untouched. -/
theorem claim_C9_witness :
    (install sample_formats "gztar" = (ArchiveFn.make_tarball644, 0) ∧
      install (install sample_formats) "gztar" = (ArchiveFn.make_tarball644, 0)) ∧
    (install sample_formats "zip" = (ArchiveFn.make_zipfile644, 1) ∧
      install (install sample_formats) "zip" = (ArchiveFn.make_zipfile644, 1)) ∧
    (install sample_formats "bztar" = (ArchiveFn.other 3, 2) ∧
      install (install sample_formats) "bztar" = (ArchiveFn.other 3, 2)) :=
  ⟨(claim_C9 sample_formats).2.1 "gztar" 0 (by simp [sample_formats]),
    (claim_C9 sample_formats).2.2.1 "zip" 1 (by simp [sample_formats]),
    (claim_C9 sample_formats).2.2.2 "bztar" 3 2 (by simp [sample_formats])⟩

/-! ### os_listdir and os_walk (distutils644.py lines 68-77)

`os_listdir` applies `sorted()` to the raw listing produced by the original
primitive; the raw listing is the function's input here.  `os_walk` wraps
the original `os.walk` generator and sorts the yielded `dirnames` and
`filenames` lists in place; since CPython's top-down `os.walk` recurses over
the same `dirnames` list object after the yield, the descent follows the
sorted subdirectory order.  The filesystem under the walked root is modelled
as a finite tree whose directories list their entries in raw (nondeterministic
filesystem) order. -/

/-- Embedding of `os_listdir` (lines 68-70): `sorted()` of the raw listing. -/
def os_listdir (entries : List String) : List String :=
  entries.mergeSort (fun a b => a ≤ b)

/-- A directory tree: the raw (filesystem-ordered) list of file names and
the raw list of subdirectories, each with its name. -/
inductive FS : Type where
  | mk : (files : List String) → (dirs : List (String × FS)) → FS

/-- Embedding of the substituted walk (lines 72-77) composed with the
`os.walk` primitive it wraps, over an `FS` tree: every yielded level carries
sorted `dirnames` and `filenames`, and recursion descends the subdirectories
in sorted-name order, joining paths with `"/"`. -/
def os_walk (top : String) (fs : FS) : List (String × List String × List String) :=
  match fs with
  | FS.mk files dirs =>
    (top, (dirs.map Prod.fst).mergeSort (fun a b => a ≤ b),
        files.mergeSort (fun a b => a ≤ b)) ::
      ((dirs.mergeSort (fun a b => a.1 ≤ b.1)).attach.flatMap
        (fun p => os_walk (top ++ "/" ++ p.1.1) p.1.2))
termination_by sizeOf fs
decreasing_by
  simp_wf
  obtain ⟨⟨n, t⟩, hp⟩ := p
  rw [List.mem_mergeSort] at hp
  have h1 := List.sizeOf_lt_of_mem hp
  simp only [Prod.mk.sizeOf_spec] at h1
  simp only [FS.mk.sizeOf_spec]
  omega

/-- Permutation-up-to-`R` of subdirectory listings, mirroring the
constructors of `List.Perm`: related positions carry equal names and
`R`-related subtrees. -/
inductive FS.DirsRel (R : FS → FS → Prop) :
    List (String × FS) → List (String × FS) → Prop where
  | nil : FS.DirsRel R [] []
  | cons : ∀ {n : String} {t t' : FS} {l l' : List (String × FS)},
      R t t' → FS.DirsRel R l l' →
      FS.DirsRel R ((n, t) :: l) ((n, t') :: l')
  | swap : ∀ (p q : String × FS) (l : List (String × FS)),
      FS.DirsRel R (p :: q :: l) (q :: p :: l)
  | trans : ∀ {l₁ l₂ l₃ : List (String × FS)},
      FS.DirsRel R l₁ l₂ → FS.DirsRel R l₂ l₃ → FS.DirsRel R l₁ l₃

/-- Two raw filesystems list the same entries, possibly in different order,
at every level: the file lists are permutations and the subdirectory lists
are permutations with equivalent subtrees under equal names. -/
inductive FS.Equiv : FS → FS → Prop where
  | mk : ∀ {files files' : List String} {dirs dirs' : List (String × FS)},
      files.Perm files' → FS.DirsRel FS.Equiv dirs dirs' →
      FS.Equiv (FS.mk files dirs) (FS.mk files' dirs')

/-- Permutation-up-to-`FS.Equiv` of subdirectory listings. -/
abbrev FS.DirsEquiv : List (String × FS) → List (String × FS) → Prop :=
  FS.DirsRel FS.Equiv

/-- A well-formed filesystem: subdirectory names are distinct within each
directory, at every level. -/
inductive FS.WF : FS → Prop where
  | mk : ∀ {files : List String} {dirs : List (String × FS)},
      (dirs.map Prod.fst).Nodup →
      (∀ p ∈ dirs, FS.WF p.2) →
      FS.WF (FS.mk files dirs)

/-- `sorted()` on strings produces an ascending list. -/
theorem mergeSort_strings_sorted (l : List String) :
    (l.mergeSort (fun a b => a ≤ b)).Sorted (· ≤ ·) := by
  have h := @List.sorted_mergeSort String (fun a b : String => a ≤ b)
    (fun a b c h1 h2 => by
      simp only [decide_eq_true_eq] at h1 h2 ⊢
      exact le_trans h1 h2)
    (fun a b => by
      simp only [Bool.or_eq_true, decide_eq_true_eq]
      exact le_total a b) l
  exact h.imp (fun hab => by simpa using hab)

/-- `sorted()` on strings is permutation-invariant. -/
theorem mergeSort_strings_perm_eq {l l' : List String} (h : l.Perm l') :
    l.mergeSort (fun a b => a ≤ b) = l'.mergeSort (fun a b => a ≤ b) :=
  List.eq_of_perm_of_sorted
    ((List.mergeSort_perm l _).trans (h.trans (List.mergeSort_perm l' _).symm))
    (mergeSort_strings_sorted l) (mergeSort_strings_sorted l')

/-- Sorting subdirectory records by name yields a name-ascending list. -/
theorem mergeSort_pairs_pairwise (l : List (String × FS)) :
    (l.mergeSort (fun a b => a.1 ≤ b.1)).Pairwise (fun a b => a.1 ≤ b.1) := by
  have h := @List.sorted_mergeSort (String × FS) (fun a b : String × FS => a.1 ≤ b.1)
    (fun a b c h1 h2 => by
      simp only [decide_eq_true_eq] at h1 h2 ⊢
      exact le_trans h1 h2)
    (fun a b => by
      simp only [Bool.or_eq_true, decide_eq_true_eq]
      exact le_total a.1 b.1) l
  exact h.imp (fun hab => by simpa using hab)

/-- `FS.DirsRel` listings carry the same names up to permutation. -/
theorem FS.DirsRel.names_perm {R : FS → FS → Prop} {l l' : List (String × FS)}
    (h : FS.DirsRel R l l') : (l.map Prod.fst).Perm (l'.map Prod.fst) := by
  induction h with
  | nil => exact List.Perm.refl _
  | @cons n t t' ll ll' hr hd ih =>
    simp only [List.map_cons]
    exact ih.cons n
  | swap p q l => simp only [List.map_cons]; exact List.Perm.swap _ _ _
  | trans _ _ ih1 ih2 => exact ih1.trans ih2

mutual
/-- `FS.Equiv` is reflexive. -/
theorem fs_equiv_refl : ∀ t : FS, FS.Equiv t t
  | FS.mk files dirs => FS.Equiv.mk (List.Perm.refl files) (fs_dirs_refl dirs)

/-- `FS.DirsEquiv` is reflexive. -/
theorem fs_dirs_refl : ∀ l : List (String × FS), FS.DirsEquiv l l
  | [] => FS.DirsRel.nil
  | (_, t) :: l => FS.DirsRel.cons (fs_equiv_refl t) (fs_dirs_refl l)
end

/-- `FS.Equiv` is transitive. -/
theorem FS.Equiv.trans {a b c : FS} (h1 : FS.Equiv a b) (h2 : FS.Equiv b c) :
    FS.Equiv a c := by
  cases h1 with
  | mk hf1 hd1 =>
    cases h2 with
    | mk hf2 hd2 => exact FS.Equiv.mk (hf1.trans hf2) (FS.DirsRel.trans hd1 hd2)

/-- In a listing with distinct names, a name determines its subtree. -/
theorem nodup_names_mem_eq {l : List (String × FS)}
    (hnd : (l.map Prod.fst).Nodup) {n : String} {t t' : FS}
    (h1 : (n, t) ∈ l) (h2 : (n, t') ∈ l) : t = t' := by
  induction l with
  | nil => cases h1
  | cons p l ih =>
    simp only [List.map_cons, List.nodup_cons] at hnd
    rcases List.mem_cons.mp h1 with h1 | h1 <;> rcases List.mem_cons.mp h2 with h2 | h2
    · rw [← h1] at h2
      exact ((Prod.mk.injEq _ _ _ _).mp h2.symm).2
    · exfalso
      apply hnd.1
      have hm : n ∈ l.map Prod.fst := by
        have := List.mem_map_of_mem Prod.fst h2
        simpa using this
      rw [← h1]
      exact hm
    · exfalso
      apply hnd.1
      have hm : n ∈ l.map Prod.fst := by
        have := List.mem_map_of_mem Prod.fst h1
        simpa using this
      rw [← h2]
      exact hm
    · exact ih hnd.2 h1 h2

/-- Equivalent listings with distinct names have equivalent subtrees under
each shared name. -/
theorem FS.DirsEquiv.mem_equiv {l l' : List (String × FS)}
    (h : FS.DirsEquiv l l') :
    (l.map Prod.fst).Nodup →
    ∀ {n : String} {t t' : FS}, (n, t) ∈ l → (n, t') ∈ l' → FS.Equiv t t' := by
  induction h with
  | nil =>
    intro _ n t t' h1
    cases h1
  | @cons m u u' ll ll' he hd ih =>
    intro hnd n t t' h1 h2
    simp only [List.map_cons, List.nodup_cons] at hnd
    rcases List.mem_cons.mp h1 with h1 | h1 <;> rcases List.mem_cons.mp h2 with h2 | h2
    · obtain ⟨hn1, ht1⟩ := (Prod.mk.injEq _ _ _ _).mp h1
      obtain ⟨hn2, ht2⟩ := (Prod.mk.injEq _ _ _ _).mp h2
      rw [ht1, ht2]
      exact he
    · exfalso
      apply hnd.1
      obtain ⟨hn1, _⟩ := (Prod.mk.injEq _ _ _ _).mp h1
      have hmem : n ∈ ll'.map Prod.fst := by
        have := List.mem_map_of_mem Prod.fst h2
        simpa using this
      rw [← hn1]
      exact (FS.DirsRel.names_perm hd).mem_iff.mpr hmem
    · exfalso
      apply hnd.1
      obtain ⟨hn2, _⟩ := (Prod.mk.injEq _ _ _ _).mp h2
      have hmem : n ∈ ll.map Prod.fst := by
        have := List.mem_map_of_mem Prod.fst h1
        simpa using this
      rw [← hn2]
      exact hmem
    · exact ih hnd.2 h1 h2
  | swap p q ll =>
    intro hnd n t t' h1 h2
    have h2' : (n, t') ∈ p :: q :: ll := by
      simp only [List.mem_cons] at h2 ⊢
      tauto
    have ht := nodup_names_mem_eq hnd h1 h2'
    rw [ht]
    exact fs_equiv_refl t'
  | @trans l₁ l₂ l₃ h12 h23 ih1 ih2 =>
    intro hnd n t t'' h1 h3
    have hnd2 : (l₂.map Prod.fst).Nodup :=
      (FS.DirsRel.names_perm h12).nodup_iff.mp hnd
    have hn2 : n ∈ l₂.map Prod.fst := by
      apply (FS.DirsRel.names_perm h12).mem_iff.mp
      have := List.mem_map_of_mem Prod.fst h1
      simpa using this
    obtain ⟨p, hp, hp1⟩ := List.mem_map.mp hn2
    have hpmem : (n, p.2) ∈ l₂ := by
      have hpp : (p.1, p.2) ∈ l₂ := by rw [Prod.mk.eta]; exact hp
      rwa [hp1] at hpp
    exact (ih1 hnd h1 hpmem).trans (ih2 hnd2 hpmem h3)

/-- Strengthened `Forall₂` transformation: the pointwise implication may use
membership of both elements. -/
theorem forall₂_imp_mem {α β : Type} {R S : α → β → Prop} :
    ∀ {s : List α} {s' : List β}, List.Forall₂ R s s' →
      (∀ p q, p ∈ s → q ∈ s' → R p q → S p q) → List.Forall₂ S s s' := by
  intro s s' h
  induction h with
  | nil => intro _; exact List.Forall₂.nil
  | cons h1 h2 ih =>
    intro hm
    refine List.Forall₂.cons
      (hm _ _ (List.mem_cons_self _ _) (List.mem_cons_self _ _) h1) ?_
    exact ih fun p q hp hq hr =>
      hm p q (List.mem_cons_of_mem _ hp) (List.mem_cons_of_mem _ hq) hr

/-- Two listings with identical name sequences whose shared names carry
equivalent subtrees are pointwise related. -/
theorem forall₂_of_names_eq :
    ∀ {s s' : List (String × FS)},
      s.map Prod.fst = s'.map Prod.fst →
      (∀ n t t', (n, t) ∈ s → (n, t') ∈ s' → FS.Equiv t t') →
      List.Forall₂ (fun p q => p.1 = q.1 ∧ FS.Equiv p.2 q.2) s s' := by
  intro s
  induction s with
  | nil =>
    intro s' h _
    have : s' = [] := List.map_eq_nil_iff.mp h.symm
    rw [this]
    exact List.Forall₂.nil
  | cons p s ih =>
    intro s' h hmem
    cases s' with
    | nil => simp at h
    | cons q s'' =>
      simp only [List.map_cons, List.cons.injEq] at h
      obtain ⟨hname, htail⟩ := h
      refine List.Forall₂.cons ⟨hname, ?_⟩ (ih htail ?_)
      · apply hmem p.1 p.2 q.2
        · simp
        · have hq : (q.1, q.2) ∈ q :: s'' := by
            simp
          rwa [← hname] at hq
      · intro n t t' ht ht'
        exact hmem n t t' (List.mem_cons_of_mem _ ht) (List.mem_cons_of_mem _ ht')

/-- Sorting two equivalent well-formed listings by name aligns them
pointwise: equal names, equivalent subtrees. -/
theorem dirs_sorted_forall₂ {dirs dirs' : List (String × FS)}
    (hd : FS.DirsEquiv dirs dirs')
    (hnd : (dirs.map Prod.fst).Nodup) :
    List.Forall₂ (fun p q => p.1 = q.1 ∧ FS.Equiv p.2 q.2)
      (dirs.mergeSort (fun a b => a.1 ≤ b.1))
      (dirs'.mergeSort (fun a b => a.1 ≤ b.1)) := by
  have hperm_s := List.mergeSort_perm dirs (fun a b => decide (a.1 ≤ b.1))
  have hperm_s' := List.mergeSort_perm dirs' (fun a b => decide (a.1 ≤ b.1))
  have hnames :
      (dirs.mergeSort (fun a b => a.1 ≤ b.1)).map Prod.fst =
        (dirs'.mergeSort (fun a b => a.1 ≤ b.1)).map Prod.fst := by
    apply List.eq_of_perm_of_sorted (r := (· ≤ ·))
    · exact (hperm_s.map _).trans
        ((FS.DirsRel.names_perm hd).trans (hperm_s'.map _).symm)
    · exact (mergeSort_pairs_pairwise dirs).map Prod.fst (fun a b hab => hab)
    · exact (mergeSort_pairs_pairwise dirs').map Prod.fst (fun a b hab => hab)
  apply forall₂_of_names_eq hnames
  intro n t t' ht ht'
  exact hd.mem_equiv hnd (hperm_s.subset ht) (hperm_s'.subset ht')

/-- Dissolving the `attach` used for the termination argument of
`os_walk`. -/
theorem attach_flatMap_walk (top : String) (s : List (String × FS)) :
    s.attach.flatMap (fun p => os_walk (top ++ "/" ++ p.1.1) p.1.2) =
      s.flatMap (fun p => os_walk (top ++ "/" ++ p.1) p.2) := by
  conv_rhs => rw [← List.attach_map_subtype_val s]
  rw [List.flatMap_map]

/-- Pointwise-aligned subdirectory listings produce equal walk tails. -/
theorem flatMap_walk_eq (top : String) {s s' : List (String × FS)}
    (h : List.Forall₂
      (fun p q => p.1 = q.1 ∧ ∀ t, os_walk t p.2 = os_walk t q.2) s s') :
    s.flatMap (fun p => os_walk (top ++ "/" ++ p.1) p.2) =
      s'.flatMap (fun q => os_walk (top ++ "/" ++ q.1) q.2) := by
  induction h with
  | nil => rfl
  | cons h1 h2 ih =>
    simp only [List.flatMap_cons]
    rw [h1.1, h1.2, ih]

/-- The traversal sequence of `os_walk` is determined by the entry sets:
equivalent well-formed raw filesystems walk identically.  (Induction on a
size bound.) -/
theorem os_walk_equiv_aux :
    ∀ (N : Nat) (fs fs' : FS), sizeOf fs ≤ N → FS.Equiv fs fs' →
      FS.WF fs → FS.WF fs' → ∀ top, os_walk top fs = os_walk top fs' := by
  intro N
  induction N with
  | zero =>
    intro fs fs' hsz
    cases fs with
    | mk files dirs =>
      simp only [FS.mk.sizeOf_spec] at hsz
      omega
  | succ N ih =>
    intro fs fs' hsz heq hwf hwf' top
    cases heq with
    | @mk files files' dirs dirs' hfiles hdirs =>
      cases hwf with
      | mk hnd hwfsub =>
        cases hwf' with
        | mk hnd' hwfsub' =>
          simp only [FS.mk.sizeOf_spec] at hsz
          rw [os_walk, os_walk]
          congr 1
          · rw [mergeSort_strings_perm_eq hfiles,
              mergeSort_strings_perm_eq (FS.DirsRel.names_perm hdirs)]
          · rw [attach_flatMap_walk, attach_flatMap_walk]
            apply flatMap_walk_eq
            apply forall₂_imp_mem (dirs_sorted_forall₂ hdirs hnd)
            intro p q hp hq hr
            have hp' : p ∈ dirs := (List.mergeSort_perm dirs _).subset hp
            have hq' : q ∈ dirs' := (List.mergeSort_perm dirs' _).subset hq
            refine ⟨hr.1, fun t => ?_⟩
            apply ih p.2 q.2 ?_ hr.2 (hwfsub p hp') (hwfsub' q hq')
            have hlt := List.sizeOf_lt_of_mem hp'
            have hps : sizeOf p.2 < sizeOf p := by
              obtain ⟨pn, pt⟩ := p
              simp only [Prod.mk.sizeOf_spec]
              omega
            omega

/-- Every triple yielded by `os_walk` carries sorted `dirnames` and sorted
`filenames`.  (Induction on a size bound.) -/
theorem os_walk_sorted_aux :
    ∀ (N : Nat) (fs : FS), sizeOf fs ≤ N → ∀ (top d : String) dns fns,
      (d, dns, fns) ∈ os_walk top fs →
      dns.Sorted (· ≤ ·) ∧ fns.Sorted (· ≤ ·) := by
  intro N
  induction N with
  | zero =>
    intro fs hsz
    cases fs with
    | mk files dirs =>
      simp only [FS.mk.sizeOf_spec] at hsz
      omega
  | succ N ih =>
    intro fs hsz top d dns fns hmem
    cases fs with
    | mk files dirs =>
      simp only [FS.mk.sizeOf_spec] at hsz
      rw [os_walk] at hmem
      rcases List.mem_cons.mp hmem with h | h
      · obtain ⟨hd, htl⟩ := (Prod.mk.injEq _ _ _ _).mp h
        obtain ⟨hdns, hfns⟩ := (Prod.mk.injEq _ _ _ _).mp htl
        rw [hdns, hfns]
        exact ⟨mergeSort_strings_sorted _, mergeSort_strings_sorted _⟩
      · rw [attach_flatMap_walk] at h
        obtain ⟨p, hp, hmem'⟩ := List.mem_flatMap.mp h
        have hp' : p ∈ dirs := (List.mergeSort_perm dirs _).subset hp
        have hlt := List.sizeOf_lt_of_mem hp'
        have hps : sizeOf p.2 < sizeOf p := by
          obtain ⟨pn, pt⟩ := p
          simp only [Prod.mk.sizeOf_spec]
          omega
        exact ih p.2 (by omega) _ d dns fns hmem'

/-- C2: the substituted `os_listdir` returns a sorted listing and is
invariant under permutation of the underlying entries; every level yielded
by the substituted walk carries sorted subdirectory names and sorted file
names; and two well-formed raw filesystems listing the same entries in any
orders produce the identical traversal sequence. -/
theorem claim_C2 :
    (∀ l : List String, (os_listdir l).Sorted (· ≤ ·)) ∧
    (∀ l l' : List String, l.Perm l' → os_listdir l = os_listdir l') ∧
    (∀ (top : String) (fs : FS) (d : String) (dns fns : List String),
        (d, dns, fns) ∈ os_walk top fs →
        dns.Sorted (· ≤ ·) ∧ fns.Sorted (· ≤ ·)) ∧
    (∀ (top : String) (fs fs' : FS), FS.WF fs → FS.WF fs' → FS.Equiv fs fs' →
        os_walk top fs = os_walk top fs') := by
  refine ⟨?_, ?_, ?_, ?_⟩
  · exact fun l => mergeSort_strings_sorted l
  · exact fun l l' h => mergeSort_strings_perm_eq h
  · exact fun top fs d dns fns h =>
      os_walk_sorted_aux (sizeOf fs) fs le_rfl top d dns fns h
  · exact fun top fs fs' hwf hwf' heq =>
      os_walk_equiv_aux (sizeOf fs) fs fs' le_rfl heq hwf hwf' top

/-- One raw ordering of a small filesystem (used by the C2 witness). -/
def fsA : FS :=
  FS.mk ["b", "a"] [("d", FS.mk ["x"] []), ("c", FS.mk [] [])]

/-- The same filesystem as `fsA` with both levels listed in the other
order. -/
def fsB : FS :=
  FS.mk ["a", "b"] [("c", FS.mk [] []), ("d", FS.mk ["x"] [])]

/-- A childless directory is well-formed. -/
theorem fs_wf_leaf (files : List String) : FS.WF (FS.mk files []) :=
  FS.WF.mk (by simp) (fun p hp => absurd hp (List.not_mem_nil p))

/-- `fsA` is well-formed. -/
theorem fsA_wf : FS.WF fsA := by
  refine FS.WF.mk ?_ ?_
  · simp [fsA]
  · intro p hp
    rcases List.mem_cons.mp hp with h | h
    · rw [h]; exact fs_wf_leaf _
    · rcases List.mem_cons.mp h with h | h
      · rw [h]; exact fs_wf_leaf _
      · cases h

/-- `fsB` is well-formed. -/
theorem fsB_wf : FS.WF fsB := by
  refine FS.WF.mk ?_ ?_
  · simp [fsB]
  · intro p hp
    rcases List.mem_cons.mp hp with h | h
    · rw [h]; exact fs_wf_leaf _
    · rcases List.mem_cons.mp h with h | h
      · rw [h]; exact fs_wf_leaf _
      · cases h

/-- `fsA` and `fsB` list the same entries. -/
theorem fsA_equiv_fsB : FS.Equiv fsA fsB :=
  FS.Equiv.mk (List.Perm.swap _ _ _) (FS.DirsRel.swap _ _ _)

/-- Witness for C2 at concrete inputs: the permutation-invariance of
`os_listdir`, the sortedness of a concrete walk level, and the identical
traversal of the two orderings `fsA`, `fsB` of one filesystem. -/
theorem claim_C2_witness :
    (os_listdir ["b", "a"] = os_listdir ["a", "b"]) ∧
    (([] : List String).Sorted (· ≤ ·) ∧ ([] : List String).Sorted (· ≤ ·)) ∧
    (os_walk "root" fsA = os_walk "root" fsB) := by
  refine ⟨?_, ?_, ?_⟩
  · exact claim_C2.2.1 ["b", "a"] ["a", "b"] (List.Perm.swap _ _ _)
  · refine claim_C2.2.2.1 "root" (FS.mk [] []) "root" [] [] ?_
    rw [os_walk]
    simp
  · exact claim_C2.2.2.2 "root" fsA fsB fsA_wf fsB_wf fsA_equiv_fsB

end Distutils644
